import Mathlib

/-!
Verification of the comment-stripping tool `remove_comments.py`.

The script removes comments from `.ts`/`.tsx` (script), `.html` (markup),
`.css` (stylesheet) and `.yml` (config) files using `re.sub` with
alternation patterns that give quoted literals priority over comment
delimiters, and then drops blank lines.  We model the text transforms as
executable functions over `List Char`, reproducing the semantics of the
Python regular expressions (ordered alternation, greedy repetition with
backtracking inside the backtick alternative, lazy block-comment bodies,
`.` not matching a newline) and of `str.splitlines` / `str.strip` /
`os.path.splitext`.
-/

set_option maxRecDepth 20000

namespace SxRag

abbrev Text := List Char

def backtick : Char := Char.ofNat 96

/-- The three opening characters of the script-dialect literal alternatives. -/
def isQuoteChar (c : Char) : Bool := c == '\'' || c == '"' || c == backtick

/-- Characters treated as line boundaries by Python `str.splitlines`. -/
def isLB (c : Char) : Bool :=
  c == '\n' || c == '\r' || c == '\x0b' || c == '\x0c' ||
  c == '\x1c' || c == '\x1d' || c == '\x1e' || c == '\x85' ||
  c == Char.ofNat 0x2028 || c == Char.ofNat 0x2029

/-- Characters stripped by Python `str.strip` (Unicode whitespace). -/
def isPySpace (c : Char) : Bool :=
  let n := c.toNat
  (decide (0x09 ≤ n) && decide (n ≤ 0x0d)) ||
  (decide (0x1c ≤ n) && decide (n ≤ 0x1f)) ||
  n == 0x20 || n == 0x85 || n == 0xa0 || n == 0x1680 ||
  (decide (0x2000 ≤ n) && decide (n ≤ 0x200a)) ||
  n == 0x2028 || n == 0x2029 || n == 0x202f || n == 0x205f || n == 0x3000

/-- `startsSeq pat t` holds when `pat` is a prefix of `t`. -/
def startsSeq : Text → Text → Bool
  | [], _ => true
  | _ :: _, [] => false
  | p :: ps, c :: cs => p == c && startsSeq ps cs

/-- Index of the first occurrence of `pat` in `t` (semantics of a lazy
regex body followed by the delimiter `pat`). -/
def findSeq (pat : Text) : Text → Option Nat
  | [] => none
  | c :: rest => if startsSeq pat (c :: rest) then some 0 else (findSeq pat rest).map (· + 1)

/-- Whether `pat` occurs in `t` starting at some position. -/
def containsSeq (pat : Text) : Text → Bool
  | [] => false
  | c :: rest => startsSeq pat (c :: rest) || containsSeq pat rest

/-- Semantics of the Python regex fragment matching a quoted-literal body and
its closing quote, starting just after the opening quote `q`:
`(?:\\.|[^\\q])*q` when `ex = true` (single/double quotes) and
`(?:\\.|[^q])*q` when `ex = false` (backtick).  Returns the number of
characters consumed, including the closing quote, or `none` when the
alternative fails.  The branch order reproduces the backtracking order of
the Python engine: the escape branch `\\.` first (where `.` does not match
a newline), then the character class, then the closing quote. -/
def quoteBody (q : Char) (ex : Bool) : Text → Option Nat
  | [] => none
  | c :: rest =>
    if c = '\\' then
      match rest with
      | [] => none
      | d :: rest2 =>
        if d = '\n' then
          (if ex then none else (quoteBody q ex (d :: rest2)).map (· + 1))
        else
          match quoteBody q ex rest2 with
          | some n => some (n + 2)
          | none => if ex then none else (quoteBody q ex (d :: rest2)).map (· + 1)
    else if c = q then some 1
    else (quoteBody q ex rest).map (· + 1)

/-- One left-to-right `re.sub` pass of the script-dialect pattern
`('(?:\\.|[^\\'])*'|"(?:\\.|[^\\"])*"|BT(?:\\.|[^BT])*BT)|(/\*[\s\S]*?\*/)|(//.*)`
(`BT` the backtick), keeping literal matches and deleting comment matches. -/
def jsScanAux : Text → Text
  | [] => []
  | c :: rest =>
    if isQuoteChar c then
      match quoteBody c (c != backtick) rest with
      | some n => c :: (rest.take n ++ jsScanAux (rest.drop n))
      | none => c :: jsScanAux rest
    else if startsSeq ['/', '*'] (c :: rest) then
      match findSeq ['*', '/'] (rest.drop 1) with
      | some k => jsScanAux (rest.drop (1 + k + 2))
      | none => c :: jsScanAux rest
    else if startsSeq ['/', '/'] (c :: rest) then
      jsScanAux ((rest.drop 1).dropWhile (fun x => x != '\n'))
    else c :: jsScanAux rest
  termination_by t => t.length
  decreasing_by
  · simp only [List.length_cons, List.length_drop]; omega
  · simp only [List.length_cons]; omega
  · simp only [List.length_cons, List.length_drop]; omega
  · simp only [List.length_cons]; omega
  · have h : ((rest.drop 1).dropWhile (fun x => x != '\n')).length ≤ (rest.drop 1).length :=
      (List.dropWhile_sublist _).length_le
    simp only [List.length_cons, List.length_drop] at *; omega
  · simp only [List.length_cons]; omega

/-- One pass of `re.sub(r'<!--[\s\S]*?-->', '', content)`. -/
def htmlScanAux : Text → Text
  | [] => []
  | c :: rest =>
    if startsSeq ['<', '!', '-', '-'] (c :: rest) then
      match findSeq ['-', '-', '>'] (rest.drop 3) with
      | some k => htmlScanAux (rest.drop (3 + k + 3))
      | none => c :: htmlScanAux rest
    else c :: htmlScanAux rest
  termination_by t => t.length
  decreasing_by
  · simp only [List.length_cons, List.length_drop]; omega
  · simp only [List.length_cons]; omega
  · simp only [List.length_cons]; omega

/-- One pass of `re.sub(r'/\*[\s\S]*?\*/', '', content)`. -/
def cssScanAux : Text → Text
  | [] => []
  | c :: rest =>
    if startsSeq ['/', '*'] (c :: rest) then
      match findSeq ['*', '/'] (rest.drop 1) with
      | some k => cssScanAux (rest.drop (1 + k + 2))
      | none => c :: cssScanAux rest
    else c :: cssScanAux rest
  termination_by t => t.length
  decreasing_by
  · simp only [List.length_cons, List.length_drop]; omega
  · simp only [List.length_cons]; omega
  · simp only [List.length_cons]; omega

/-- One pass of the config-dialect pattern
`('(?:\\.|[^\\'])*'|"(?:\\.|[^\\"])*")|(#.*$)` with `re.MULTILINE`,
keeping literal matches and deleting `#` line comments. -/
def ymlScanAux : Text → Text
  | [] => []
  | c :: rest =>
    if c == '\'' || c == '"' then
      match quoteBody c true rest with
      | some n => c :: (rest.take n ++ ymlScanAux (rest.drop n))
      | none => c :: ymlScanAux rest
    else if c = '#' then
      ymlScanAux (rest.dropWhile (fun x => x != '\n'))
    else c :: ymlScanAux rest
  termination_by t => t.length
  decreasing_by
  · simp only [List.length_cons, List.length_drop]; omega
  · simp only [List.length_cons]; omega
  · have h : (rest.dropWhile (fun x => x != '\n')).length ≤ rest.length :=
      (List.dropWhile_sublist _).length_le
    simp only [List.length_cons] at *; omega
  · simp only [List.length_cons]; omega

/-- `remove_js_ts_comments` from the source. -/
def remove_js_ts_comments : Text → Text := jsScanAux

/-- `remove_html_comments` from the source. -/
def remove_html_comments : Text → Text := htmlScanAux

/-- `remove_css_comments` from the source. -/
def remove_css_comments : Text → Text := cssScanAux

/-- `remove_yml_comments` from the source. -/
def remove_yml_comments : Text → Text := ymlScanAux

/-- Worker of `splitLines`; `acc` holds the chars of the current line,
reversed.  A `"\r\n"` pair counts as a single boundary, and a trailing
boundary does not produce a final empty line (Python `str.splitlines`). -/
def slAux (acc : Text) : Text → List Text
  | [] => [acc.reverse]
  | c :: rest =>
    if isLB c then
      let rest2 := if c = '\r' ∧ rest.head? = some '\n' then rest.drop 1 else rest
      acc.reverse :: (if rest2.isEmpty then [] else slAux [] rest2)
    else slAux (c :: acc) rest
  termination_by t => t.length
  decreasing_by
  · simp only [List.length_cons]
    split <;> (try simp only [List.length_drop]) <;> omega
  · simp only [List.length_cons]; omega

/-- Python `str.splitlines`. -/
def splitLines (t : Text) : List Text := if t.isEmpty then [] else slAux [] t

/-- Python `str.strip`. -/
def pyStrip (t : Text) : Text :=
  ((t.dropWhile isPySpace).reverse.dropWhile isPySpace).reverse

/-- Python `'\n'.join`. -/
def joinNL : List Text → Text
  | [] => []
  | l :: ls => l ++ (if ls.isEmpty then [] else '\n' :: joinNL ls)

/-- Lines 59–63 of the source: keep the lines whose `strip()` is nonempty,
rejoin them with `'\n'` and append one trailing `'\n'`; empty output when no
line survives. -/
def compact (t : Text) : Text :=
  if ((splitLines t).filter (fun l => !(pyStrip l).isEmpty)).isEmpty then []
  else joinNL ((splitLines t).filter (fun l => !(pyStrip l).isEmpty)) ++ ['\n']

/-- The four comment grammars of the tool. -/
inductive Dialect
  | script
  | markup
  | stylesheet
  | config
deriving DecidableEq

/-- Dispatch of `process_file` on the dialect of the file. -/
def stripDialect : Dialect → Text → Text
  | .script => remove_js_ts_comments
  | .markup => remove_html_comments
  | .stylesheet => remove_css_comments
  | .config => remove_yml_comments

/-- The per-file core transform: comment stripping then blank-line compaction. -/
def processText (d : Dialect) (t : Text) : Text := compact (stripDialect d t)

/-- Extension part of Python `os.path.splitext` (posix): the suffix starting
at the last dot, provided that dot lies after the last `'/'` and the
basename does not consist solely of dots up to it. -/
def splitextExt (p : Text) : Text :=
  if p.any (fun c => c == '.')
      && !((p.reverse.takeWhile (fun c => c != '.')).any (fun c => c == '/')) then
    if ((p.reverse.drop ((p.reverse.takeWhile (fun c => c != '.')).length + 1)).takeWhile
        (fun c => c != '/')).any (fun c => c != '.') then
      '.' :: (p.reverse.takeWhile (fun c => c != '.')).reverse
    else []
  else []

/-- Lines 48–55 of the source: extension-to-dialect table. -/
def dialectOfExt (e : Text) : Option Dialect :=
  if e = ".ts".toList ∨ e = ".tsx".toList then some .script
  else if e = ".html".toList then some .markup
  else if e = ".css".toList then some .stylesheet
  else if e = ".yml".toList then some .config
  else none

/-- Lines 46–63 of `process_file`, as a pure text transform: dispatch on the
`os.path.splitext` extension of the path; unknown extensions leave the
content untouched (the function returns before rewriting the file). -/
def process_file (filepath : Text) (content : Text) : Text :=
  match dialectOfExt (splitextExt filepath) with
  | some d => processText d content
  | none => content

/-! ### Basic lemmas about the searching primitives -/

lemma startsSeq_take (p : Text) : ∀ t : Text, startsSeq p t = startsSeq p (t.take p.length) := by
  induction p with
  | nil => intro t; rfl
  | cons x ps ih =>
    intro t
    cases t with
    | nil => rfl
    | cons c cs => simp [startsSeq, List.take_succ_cons, ih cs]

lemma take_append_take (u v : Text) : ∀ n m : Nat, n ≤ m →
    (u ++ v).take n = (u ++ v.take m).take n := by
  induction u with
  | nil =>
    intro n m h
    simp only [List.nil_append, List.take_take]
    rw [Nat.min_eq_left h]
  | cons c u' ih =>
    intro n m h
    cases n with
    | zero => rfl
    | succ n' =>
      simp only [List.cons_append, List.take_succ_cons]
      rw [ih n' m (by omega)]

lemma startsSeq_cut (p : Text) (c : Char) (u v : Text) (k : Nat) (hk : p.length = k + 1) :
    startsSeq p (c :: (u ++ v)) = startsSeq p (c :: (u ++ v.take k)) := by
  rw [startsSeq_take p (c :: (u ++ v)), startsSeq_take p (c :: (u ++ v.take k)), hk]
  have h : (c :: (u ++ v)).take (k + 1) = (c :: (u ++ v.take k)).take (k + 1) := by
    simp only [List.take_succ_cons]
    rw [take_append_take u v k k le_rfl]
  rw [h]

lemma containsSeq_cons_false {pat : Text} {c : Char} {t : Text}
    (h : containsSeq pat (c :: t) = false) :
    startsSeq pat (c :: t) = false ∧ containsSeq pat t = false := by
  simpa [containsSeq, Bool.or_eq_false_iff] using h

lemma containsSeq_drop_one {pat : Text} {t : Text} (h : containsSeq pat t = false) :
    containsSeq pat (t.drop 1) = false := by
  cases t with
  | nil => simpa using h
  | cons c rest => exact (containsSeq_cons_false h).2

lemma findSeq_of_not_contains {pat : Text} : ∀ {t : Text}, containsSeq pat t = false →
    findSeq pat t = none := by
  intro t
  induction t with
  | nil => intro _; rfl
  | cons c rest ih =>
    intro h
    obtain ⟨h1, h2⟩ := containsSeq_cons_false h
    simp [findSeq, h1, ih h2]

/-- First occurrence of a two-character delimiter `[x, y]` with `x ≠ y`,
appended after a clean body, is at the junction. -/
lemma findSeq_append_pair (x y : Char) (hxy : x ≠ y) :
    ∀ (body b : Text), containsSeq [x, y] body = false →
    findSeq [x, y] (body ++ x :: y :: b) = some body.length := by
  intro body
  induction body with
  | nil => intro b _; simp [findSeq, startsSeq]
  | cons c body' ih =>
    intro b h
    obtain ⟨h1, h2⟩ := containsSeq_cons_false h
    have hs : startsSeq [x, y] (c :: (body' ++ x :: y :: b)) = false := by
      cases body' with
      | nil =>
        have hyx : (y == x) = false := by
          simp only [beq_eq_false_iff_ne, ne_eq]
          exact fun h => hxy h.symm
        simp [startsSeq, hyx]
      | cons d body'' => simpa [startsSeq] using h1
    simp only [List.cons_append, findSeq, List.append_eq, hs, Bool.false_eq_true, if_false,
      ih b h2, Option.map_some', List.length_cons]

/-- First occurrence of the markup closer appended after a clean body is at
the junction. -/
lemma findSeq_append_arrow :
    ∀ (body b : Text), containsSeq ['-', '-', '>'] body = false →
    findSeq ['-', '-', '>'] (body ++ '-' :: '-' :: '>' :: b) = some body.length := by
  intro body
  induction body with
  | nil => intro b _; simp [findSeq, startsSeq]
  | cons c body' ih =>
    intro b h
    obtain ⟨h1, h2⟩ := containsSeq_cons_false h
    have hs : startsSeq ['-', '-', '>'] (c :: (body' ++ '-' :: '-' :: '>' :: b)) = false := by
      cases body' with
      | nil => simp [startsSeq]
      | cons d body'' =>
        cases body'' with
        | nil => simp [startsSeq]
        | cons e body''' => simpa [startsSeq] using h1
    simp only [List.cons_append, findSeq, List.append_eq, hs, Bool.false_eq_true, if_false,
      ih b h2, Option.map_some', List.length_cons]

/-! ### Lemmas about the quoted-literal matcher -/

/-- Well-formed body of a terminated quoted literal with delimiter `q`: a
sequence of items, each either a backslash escape (whose escaped character is
not a newline) or a single character that is neither the delimiter nor a
backslash. -/
def wfBody (q : Char) : Text → Bool
  | [] => true
  | c :: rest =>
    if c = '\\' then
      match rest with
      | [] => false
      | d :: rest2 => d != '\n' && wfBody q rest2
    else c != q && wfBody q rest

lemma quoteBody_closes (q : Char) (ex : Bool) (hq : q ≠ '\\') :
    ∀ (body b : Text), wfBody q body = true →
    quoteBody q ex (body ++ q :: b) = some (body.length + 1) := by
  have main : ∀ (n : Nat) (body b : Text), body.length ≤ n → wfBody q body = true →
      quoteBody q ex (body ++ q :: b) = some (body.length + 1) := by
    intro n
    induction n with
    | zero =>
      intro body b hlen _
      have hnil : body = [] := by
        cases body with
        | nil => rfl
        | cons c r => simp at hlen
      subst hnil
      rw [List.nil_append, quoteBody.eq_def]
      dsimp only
      rw [if_neg hq, if_pos rfl]
      simp
    | succ n ih =>
      intro body b hlen hwf
      cases body with
      | nil =>
        rw [List.nil_append, quoteBody.eq_def]
        dsimp only
        rw [if_neg hq, if_pos rfl]
        simp
      | cons c rest =>
        rw [List.cons_append, quoteBody.eq_def]
        dsimp only
        rw [wfBody.eq_def] at hwf
        dsimp only at hwf
        by_cases hc : c = '\\'
        · rw [if_pos hc]
          rw [if_pos hc] at hwf
          cases rest with
          | nil => simp at hwf
          | cons d rest2 =>
            dsimp only at hwf
            simp only [Bool.and_eq_true, bne_iff_ne, ne_eq] at hwf
            obtain ⟨hd, hwf2⟩ := hwf
            have hrec : quoteBody q ex (rest2 ++ q :: b) = some (rest2.length + 1) :=
              ih rest2 b (by simp only [List.length_cons] at hlen; omega) hwf2
            rw [List.cons_append]
            dsimp only
            rw [if_neg hd, hrec]
            simp only [List.length_cons]
        · rw [if_neg hc]
          rw [if_neg hc] at hwf
          simp only [Bool.and_eq_true, bne_iff_ne, ne_eq] at hwf
          obtain ⟨hcq, hwf2⟩ := hwf
          have hrec : quoteBody q ex (rest ++ q :: b) = some (rest.length + 1) :=
            ih rest b (by simp only [List.length_cons] at hlen; omega) hwf2
          rw [if_neg hcq, hrec]
          simp only [Option.map_some', List.length_cons]
  intro body b hwf
  exact main body.length body b le_rfl hwf

lemma quoteBody_none (q : Char) (ex : Bool) :
    ∀ {s : Text}, (∀ c ∈ s, c ≠ q ∧ c ≠ '\\') → quoteBody q ex s = none := by
  intro s
  induction s with
  | nil => intro _; rfl
  | cons c rest ih =>
    intro h
    obtain ⟨hcq, hcb⟩ := h c (List.mem_cons_self c rest)
    have hrec := ih (fun d hd => h d (List.mem_cons_of_mem c hd))
    rw [quoteBody.eq_def]
    dsimp only
    rw [if_neg hcb, if_neg hcq, hrec]
    rfl

/-! ### Scanning over neutral context -/

lemma isQuoteChar_ne_bs {q : Char} (hq : isQuoteChar q = true) : q ≠ '\\' := by
  simp only [isQuoteChar, backtick, Bool.or_eq_true, beq_iff_eq] at hq
  rcases hq with (h | h) | h <;> subst h <;> decide

lemma dropWhile_all {p : Char → Bool} : ∀ {u v : Text}, (∀ c ∈ u, p c = true) →
    (u ++ v).dropWhile p = v.dropWhile p := by
  intro u
  induction u with
  | nil => intro v _; rfl
  | cons c u' ih =>
    intro v h
    rw [List.cons_append, List.dropWhile_cons_of_pos (h c (List.mem_cons_self c u'))]
    exact ih (fun d hd => h d (List.mem_cons_of_mem c hd))

/-- Characters of a neutral script context are scanned as plain text: no
quote character and no `//` or `/*` digram (also across the junction with the
first character of `x`). -/
lemma js_plain : ∀ (a x : Text),
    (∀ c ∈ a, isQuoteChar c = false) →
    containsSeq ['/', '/'] (a ++ x.take 1) = false →
    containsSeq ['/', '*'] (a ++ x.take 1) = false →
    jsScanAux (a ++ x) = a ++ jsScanAux x := by
  intro a
  induction a with
  | nil => intro x _ _ _; rfl
  | cons c rest ih =>
    intro x hq h1 h2
    have hqc : isQuoteChar c = false := hq c (List.mem_cons_self c rest)
    rw [List.cons_append] at h1 h2
    obtain ⟨h1s, h1t⟩ := containsSeq_cons_false h1
    obtain ⟨h2s, h2t⟩ := containsSeq_cons_false h2
    have hS : startsSeq ['/', '*'] (c :: (rest ++ x)) = false := by
      rw [startsSeq_cut ['/', '*'] c rest x 1 rfl]; exact h2s
    have hL : startsSeq ['/', '/'] (c :: (rest ++ x)) = false := by
      rw [startsSeq_cut ['/', '/'] c rest x 1 rfl]; exact h1s
    rw [List.cons_append, jsScanAux.eq_def]
    dsimp only
    rw [if_neg (by simp [hqc]), if_neg (by simp [hS]), if_neg (by simp [hL])]
    rw [ih x (fun d hd => hq d (List.mem_cons_of_mem c hd)) h1t h2t, List.cons_append]

/-- Characters of a neutral stylesheet context (no `/*` digram, also across
the junction) are scanned as plain text. -/
lemma css_plain : ∀ (a x : Text),
    containsSeq ['/', '*'] (a ++ x.take 1) = false →
    cssScanAux (a ++ x) = a ++ cssScanAux x := by
  intro a
  induction a with
  | nil => intro x _; rfl
  | cons c rest ih =>
    intro x h2
    rw [List.cons_append] at h2
    obtain ⟨h2s, h2t⟩ := containsSeq_cons_false h2
    have hS : startsSeq ['/', '*'] (c :: (rest ++ x)) = false := by
      rw [startsSeq_cut ['/', '*'] c rest x 1 rfl]; exact h2s
    rw [List.cons_append, cssScanAux.eq_def]
    dsimp only
    rw [if_neg (by simp [hS])]
    rw [ih x h2t, List.cons_append]

/-- Characters of a neutral markup context (no `<!--` tetragram, also across
the junction) are scanned as plain text. -/
lemma html_plain : ∀ (a x : Text),
    containsSeq ['<', '!', '-', '-'] (a ++ x.take 3) = false →
    htmlScanAux (a ++ x) = a ++ htmlScanAux x := by
  intro a
  induction a with
  | nil => intro x _; rfl
  | cons c rest ih =>
    intro x h2
    rw [List.cons_append] at h2
    obtain ⟨h2s, h2t⟩ := containsSeq_cons_false h2
    have hS : startsSeq ['<', '!', '-', '-'] (c :: (rest ++ x)) = false := by
      rw [startsSeq_cut ['<', '!', '-', '-'] c rest x 3 rfl]; exact h2s
    rw [List.cons_append, htmlScanAux.eq_def]
    dsimp only
    rw [if_neg (by simp [hS])]
    rw [ih x h2t, List.cons_append]

/-- Characters of a neutral config context (no quote, no `#`) are scanned as
plain text. -/
lemma yml_plain : ∀ (a x : Text),
    (∀ c ∈ a, c ≠ '\'' ∧ c ≠ '"' ∧ c ≠ '#') →
    ymlScanAux (a ++ x) = a ++ ymlScanAux x := by
  intro a
  induction a with
  | nil => intro x _; rfl
  | cons c rest ih =>
    intro x h
    obtain ⟨hc1, hc2, hc3⟩ := h c (List.mem_cons_self c rest)
    rw [List.cons_append, ymlScanAux.eq_def]
    dsimp only
    rw [if_neg (by simp [hc1, hc2]), if_neg hc3]
    rw [ih x (fun d hd => h d (List.mem_cons_of_mem c hd)), List.cons_append]

/-! ### Scanner steps at literals and comments -/

/-- The script scanner consumes a terminated well-formed literal whole and
keeps it verbatim. -/
lemma jsScanAux_lit (q : Char) (body b : Text) (hq : isQuoteChar q = true)
    (hwf : wfBody q body = true) :
    jsScanAux (q :: (body ++ q :: b)) = q :: (body ++ q :: jsScanAux b) := by
  rw [jsScanAux.eq_def]
  dsimp only
  rw [if_pos (by simp [hq])]
  rw [quoteBody_closes q (q != backtick) (isQuoteChar_ne_bs hq) body b hwf]
  dsimp only
  have htake : (body ++ q :: b).take (body.length + 1) = body ++ [q] := by
    have : body ++ q :: b = (body ++ [q]) ++ b := by simp
    rw [this, List.take_left' (by simp)]
  have hdrop : (body ++ q :: b).drop (body.length + 1) = b := by
    have : body ++ q :: b = (body ++ [q]) ++ b := by simp
    rw [this, List.drop_left' (by simp)]
  rw [htake, hdrop]
  simp

/-- The script scanner deletes a terminated block comment. -/
lemma jsScanAux_block (body b : Text) (hbody : containsSeq ['*', '/'] body = false) :
    jsScanAux ('/' :: '*' :: (body ++ '*' :: '/' :: b)) = jsScanAux b := by
  rw [jsScanAux.eq_def]
  dsimp only
  rw [if_neg (by decide), if_pos (by simp [startsSeq])]
  have hfind : findSeq ['*', '/'] (('*' :: (body ++ '*' :: '/' :: b)).drop 1)
      = some body.length := by
    rw [List.drop_succ_cons, List.drop_zero]
    exact findSeq_append_pair '*' '/' (by decide) body b hbody
  rw [hfind]
  dsimp only
  have hdrop : ('*' :: (body ++ '*' :: '/' :: b)).drop (1 + body.length + 2) = b := by
    have : '*' :: (body ++ '*' :: '/' :: b) = ('*' :: body ++ ['*', '/']) ++ b := by simp
    rw [this, List.drop_left' (by simp; omega)]
  rw [hdrop]

/-- The script scanner deletes a line comment up to the line end. -/
lemma jsScanAux_line (body b : Text) (hbody : ∀ c ∈ body, c ≠ '\n')
    (hb : b = [] ∨ ∃ b', b = '\n' :: b') :
    jsScanAux ('/' :: '/' :: (body ++ b)) = jsScanAux b := by
  rw [jsScanAux.eq_def]
  dsimp only
  rw [if_neg (by decide), if_neg (by simp [startsSeq]), if_pos (by simp [startsSeq])]
  rw [List.drop_succ_cons, List.drop_zero]
  have hdw : (body ++ b).dropWhile (fun x => x != '\n') = b := by
    rw [dropWhile_all (by intro c hc; simpa using hbody c hc)]
    rcases hb with h | ⟨b', h⟩ <;> subst h
    · rfl
    · rw [List.dropWhile_cons_of_neg (by simp)]
  rw [hdw]

/-- The stylesheet scanner deletes a terminated block comment. -/
lemma cssScanAux_com (body b : Text) (hbody : containsSeq ['*', '/'] body = false) :
    cssScanAux ('/' :: '*' :: (body ++ '*' :: '/' :: b)) = cssScanAux b := by
  rw [cssScanAux.eq_def]
  dsimp only
  rw [if_pos (by simp [startsSeq])]
  have hfind : findSeq ['*', '/'] (('*' :: (body ++ '*' :: '/' :: b)).drop 1)
      = some body.length := by
    rw [List.drop_succ_cons, List.drop_zero]
    exact findSeq_append_pair '*' '/' (by decide) body b hbody
  rw [hfind]
  dsimp only
  have hdrop : ('*' :: (body ++ '*' :: '/' :: b)).drop (1 + body.length + 2) = b := by
    have : '*' :: (body ++ '*' :: '/' :: b) = ('*' :: body ++ ['*', '/']) ++ b := by simp
    rw [this, List.drop_left' (by simp; omega)]
  rw [hdrop]

/-- The markup scanner deletes a terminated markup comment. -/
lemma htmlScanAux_com (body b : Text) (hbody : containsSeq ['-', '-', '>'] body = false) :
    htmlScanAux ('<' :: '!' :: '-' :: '-' :: (body ++ '-' :: '-' :: '>' :: b))
      = htmlScanAux b := by
  rw [htmlScanAux.eq_def]
  dsimp only
  rw [if_pos (by simp [startsSeq])]
  have hfind : findSeq ['-', '-', '>'] (('!' :: '-' :: '-' :: (body ++ '-' :: '-' :: '>' :: b)).drop 3)
      = some body.length := by
    simp only [List.drop_succ_cons, List.drop_zero]
    exact findSeq_append_arrow body b hbody
  rw [hfind]
  dsimp only
  have hdrop : ('!' :: '-' :: '-' :: (body ++ '-' :: '-' :: '>' :: b)).drop (3 + body.length + 3)
      = b := by
    have : '!' :: '-' :: '-' :: (body ++ '-' :: '-' :: '>' :: b)
        = ('!' :: '-' :: '-' :: body ++ ['-', '-', '>']) ++ b := by simp
    rw [this, List.drop_left' (by simp; omega)]
  rw [hdrop]

/-! ### Fuel-based computable versions of the scanners

The scanners above are defined by well-founded recursion, which the kernel
does not reduce; the following structurally recursive versions (fuel bounded
by the input length) compute by `rfl`/`decide`, and agree with them. -/

def jsScanF : Nat → Text → Text
  | _, [] => []
  | 0, t => t
  | n + 1, c :: rest =>
    if isQuoteChar c then
      match quoteBody c (c != backtick) rest with
      | some m => c :: (rest.take m ++ jsScanF n (rest.drop m))
      | none => c :: jsScanF n rest
    else if startsSeq ['/', '*'] (c :: rest) then
      match findSeq ['*', '/'] (rest.drop 1) with
      | some k => jsScanF n (rest.drop (1 + k + 2))
      | none => c :: jsScanF n rest
    else if startsSeq ['/', '/'] (c :: rest) then
      jsScanF n ((rest.drop 1).dropWhile (fun x => x != '\n'))
    else c :: jsScanF n rest

def htmlScanF : Nat → Text → Text
  | _, [] => []
  | 0, t => t
  | n + 1, c :: rest =>
    if startsSeq ['<', '!', '-', '-'] (c :: rest) then
      match findSeq ['-', '-', '>'] (rest.drop 3) with
      | some k => htmlScanF n (rest.drop (3 + k + 3))
      | none => c :: htmlScanF n rest
    else c :: htmlScanF n rest

def cssScanF : Nat → Text → Text
  | _, [] => []
  | 0, t => t
  | n + 1, c :: rest =>
    if startsSeq ['/', '*'] (c :: rest) then
      match findSeq ['*', '/'] (rest.drop 1) with
      | some k => cssScanF n (rest.drop (1 + k + 2))
      | none => c :: cssScanF n rest
    else c :: cssScanF n rest

def ymlScanF : Nat → Text → Text
  | _, [] => []
  | 0, t => t
  | n + 1, c :: rest =>
    if c == '\'' || c == '"' then
      match quoteBody c true rest with
      | some m => c :: (rest.take m ++ ymlScanF n (rest.drop m))
      | none => c :: ymlScanF n rest
    else if c = '#' then
      ymlScanF n (rest.dropWhile (fun x => x != '\n'))
    else c :: ymlScanF n rest

def slAuxF : Nat → Text → Text → List Text
  | _, acc, [] => [acc.reverse]
  | 0, acc, t => [acc.reverse ++ t]
  | n + 1, acc, c :: rest =>
    if isLB c then
      let rest2 := if c = '\r' ∧ rest.head? = some '\n' then rest.drop 1 else rest
      acc.reverse :: (if rest2.isEmpty then [] else slAuxF n [] rest2)
    else slAuxF n (c :: acc) rest

lemma jsScanF_eq : ∀ (n : Nat) (t : Text), t.length ≤ n → jsScanF n t = jsScanAux t := by
  intro n
  induction n with
  | zero =>
    intro t hlen
    have ht : t = [] := by
      cases t with
      | nil => rfl
      | cons c r => simp at hlen
    subst ht
    rw [jsScanAux.eq_def]
    rfl
  | succ n ih =>
    intro t hlen
    cases t with
    | nil => rw [jsScanAux.eq_def]; rfl
    | cons c rest =>
      have hr : rest.length ≤ n := by
        simp only [List.length_cons] at hlen; omega
      rw [jsScanAux.eq_def, jsScanF.eq_def]
      dsimp only
      by_cases hq : isQuoteChar c = true
      · rw [if_pos hq, if_pos hq]
        cases hqb : quoteBody c (c != backtick) rest with
        | some m =>
          dsimp only
          rw [ih (rest.drop m) (by simp only [List.length_drop]; omega)]
        | none =>
          dsimp only
          rw [ih rest hr]
      · rw [if_neg hq, if_neg hq]
        by_cases hbs : startsSeq ['/', '*'] (c :: rest) = true
        · rw [if_pos hbs, if_pos hbs]
          cases hf : findSeq ['*', '/'] (rest.drop 1) with
          | some k =>
            dsimp only
            rw [ih (rest.drop (1 + k + 2)) (by simp only [List.length_drop]; omega)]
          | none =>
            dsimp only
            rw [ih rest hr]
        · rw [if_neg hbs, if_neg hbs]
          by_cases hls : startsSeq ['/', '/'] (c :: rest) = true
          · rw [if_pos hls, if_pos hls]
            have hlen2 : ((rest.drop 1).dropWhile (fun x => x != '\n')).length ≤ n := by
              have h1 : ((rest.drop 1).dropWhile (fun x => x != '\n')).length
                  ≤ (rest.drop 1).length := (List.dropWhile_sublist _).length_le
              simp only [List.length_drop] at h1
              omega
            rw [ih _ hlen2]
          · rw [if_neg hls, if_neg hls, ih rest hr]

lemma htmlScanF_eq : ∀ (n : Nat) (t : Text), t.length ≤ n → htmlScanF n t = htmlScanAux t := by
  intro n
  induction n with
  | zero =>
    intro t hlen
    have ht : t = [] := by
      cases t with
      | nil => rfl
      | cons c r => simp at hlen
    subst ht
    rw [htmlScanAux.eq_def]
    rfl
  | succ n ih =>
    intro t hlen
    cases t with
    | nil => rw [htmlScanAux.eq_def]; rfl
    | cons c rest =>
      have hr : rest.length ≤ n := by
        simp only [List.length_cons] at hlen; omega
      rw [htmlScanAux.eq_def, htmlScanF.eq_def]
      dsimp only
      by_cases hbs : startsSeq ['<', '!', '-', '-'] (c :: rest) = true
      · rw [if_pos hbs, if_pos hbs]
        cases hf : findSeq ['-', '-', '>'] (rest.drop 3) with
        | some k =>
          dsimp only
          rw [ih (rest.drop (3 + k + 3)) (by simp only [List.length_drop]; omega)]
        | none =>
          dsimp only
          rw [ih rest hr]
      · rw [if_neg hbs, if_neg hbs, ih rest hr]

lemma cssScanF_eq : ∀ (n : Nat) (t : Text), t.length ≤ n → cssScanF n t = cssScanAux t := by
  intro n
  induction n with
  | zero =>
    intro t hlen
    have ht : t = [] := by
      cases t with
      | nil => rfl
      | cons c r => simp at hlen
    subst ht
    rw [cssScanAux.eq_def]
    rfl
  | succ n ih =>
    intro t hlen
    cases t with
    | nil => rw [cssScanAux.eq_def]; rfl
    | cons c rest =>
      have hr : rest.length ≤ n := by
        simp only [List.length_cons] at hlen; omega
      rw [cssScanAux.eq_def, cssScanF.eq_def]
      dsimp only
      by_cases hbs : startsSeq ['/', '*'] (c :: rest) = true
      · rw [if_pos hbs, if_pos hbs]
        cases hf : findSeq ['*', '/'] (rest.drop 1) with
        | some k =>
          dsimp only
          rw [ih (rest.drop (1 + k + 2)) (by simp only [List.length_drop]; omega)]
        | none =>
          dsimp only
          rw [ih rest hr]
      · rw [if_neg hbs, if_neg hbs, ih rest hr]

lemma ymlScanF_eq : ∀ (n : Nat) (t : Text), t.length ≤ n → ymlScanF n t = ymlScanAux t := by
  intro n
  induction n with
  | zero =>
    intro t hlen
    have ht : t = [] := by
      cases t with
      | nil => rfl
      | cons c r => simp at hlen
    subst ht
    rw [ymlScanAux.eq_def]
    rfl
  | succ n ih =>
    intro t hlen
    cases t with
    | nil => rw [ymlScanAux.eq_def]; rfl
    | cons c rest =>
      have hr : rest.length ≤ n := by
        simp only [List.length_cons] at hlen; omega
      rw [ymlScanAux.eq_def, ymlScanF.eq_def]
      dsimp only
      by_cases hq : (c == '\'' || c == '"') = true
      · rw [if_pos hq, if_pos hq]
        cases hqb : quoteBody c true rest with
        | some m =>
          dsimp only
          rw [ih (rest.drop m) (by simp only [List.length_drop]; omega)]
        | none =>
          dsimp only
          rw [ih rest hr]
      · rw [if_neg hq, if_neg hq]
        by_cases hc : c = '#'
        · rw [if_pos hc, if_pos hc]
          have hlen2 : (rest.dropWhile (fun x => x != '\n')).length ≤ n := by
            have h1 : (rest.dropWhile (fun x => x != '\n')).length ≤ rest.length :=
              (List.dropWhile_sublist _).length_le
            omega
          rw [ih _ hlen2]
        · rw [if_neg hc, if_neg hc, ih rest hr]

lemma slAuxF_eq : ∀ (n : Nat) (acc t : Text), t.length ≤ n → slAuxF n acc t = slAux acc t := by
  intro n
  induction n with
  | zero =>
    intro acc t hlen
    have ht : t = [] := by
      cases t with
      | nil => rfl
      | cons c r => simp at hlen
    subst ht
    rw [slAux.eq_def]
    rfl
  | succ n ih =>
    intro acc t hlen
    cases t with
    | nil => rw [slAux.eq_def]; rfl
    | cons c rest =>
      have hr : rest.length ≤ n := by
        simp only [List.length_cons] at hlen; omega
      rw [slAux.eq_def, slAuxF.eq_def]
      dsimp only
      by_cases hlb : isLB c = true
      · rw [if_pos hlb, if_pos hlb]
        by_cases hcr : c = '\r' ∧ rest.head? = some '\n'
        · rw [if_pos hcr]
          by_cases hre : (rest.drop 1).isEmpty = true
          · rw [if_pos hre, if_pos hre]
          · rw [if_neg hre, if_neg hre]
            rw [ih [] (rest.drop 1) (by simp only [List.length_drop]; omega)]
        · rw [if_neg hcr]
          by_cases hre : rest.isEmpty = true
          · rw [if_pos hre, if_pos hre]
          · rw [if_neg hre, if_neg hre, ih [] rest hr]
      · rw [if_neg hlb, if_neg hlb, ih (c :: acc) rest hr]

/-- Computable version of `splitLines`. -/
def splitLinesC (t : Text) : List Text := if t.isEmpty then [] else slAuxF t.length [] t

lemma splitLinesC_eq (t : Text) : splitLinesC t = splitLines t := by
  unfold splitLinesC splitLines
  by_cases h : t.isEmpty = true
  · rw [if_pos h, if_pos h]
  · rw [if_neg h, if_neg h, slAuxF_eq t.length [] t le_rfl]

/-- Computable version of `compact`. -/
def compactC (t : Text) : Text :=
  if ((splitLinesC t).filter (fun l => !(pyStrip l).isEmpty)).isEmpty then []
  else joinNL ((splitLinesC t).filter (fun l => !(pyStrip l).isEmpty)) ++ ['\n']

lemma compactC_eq (t : Text) : compactC t = compact t := by
  unfold compactC compact
  rw [splitLinesC_eq]

/-- Computable version of `stripDialect`. -/
def stripDialectC : Dialect → Text → Text
  | .script => fun t => jsScanF t.length t
  | .markup => fun t => htmlScanF t.length t
  | .stylesheet => fun t => cssScanF t.length t
  | .config => fun t => ymlScanF t.length t

lemma stripDialectC_eq (d : Dialect) (t : Text) : stripDialectC d t = stripDialect d t := by
  cases d
  · exact jsScanF_eq t.length t le_rfl
  · exact htmlScanF_eq t.length t le_rfl
  · exact cssScanF_eq t.length t le_rfl
  · exact ymlScanF_eq t.length t le_rfl

/-- Computable version of `processText`. -/
def processTextC (d : Dialect) (t : Text) : Text := compactC (stripDialectC d t)

lemma processTextC_eq (d : Dialect) (t : Text) : processTextC d t = processText d t := by
  unfold processTextC processText
  rw [compactC_eq, stripDialectC_eq]

/-- Computable version of `process_file`. -/
def process_fileC (filepath : Text) (content : Text) : Text :=
  match dialectOfExt (splitextExt filepath) with
  | some d => processTextC d content
  | none => content

lemma process_fileC_eq (filepath content : Text) :
    process_fileC filepath content = process_file filepath content := by
  unfold process_fileC process_file
  cases dialectOfExt (splitextExt filepath) with
  | some d => exact processTextC_eq d content
  | none => rfl

/-! ### Lemmas about line splitting and blank-line compaction -/

lemma slAux_app : ∀ (l : Text), (∀ c ∈ l, isLB c = false) → ∀ (acc r : Text),
    slAux acc (l ++ r) = slAux (l.reverse ++ acc) r := by
  intro l
  induction l with
  | nil => intro _ acc r; simp
  | cons c l' ih =>
    intro h acc r
    have hc : isLB c = false := h c (List.mem_cons_self c l')
    rw [List.cons_append, slAux.eq_def]
    dsimp only
    rw [if_neg (by simp [hc])]
    rw [ih (fun d hd => h d (List.mem_cons_of_mem c hd)) (c :: acc) r]
    simp [List.append_assoc]

lemma slAux_mem_no_lb : ∀ (n : Nat) (t acc : Text), t.length ≤ n →
    (∀ c ∈ acc, isLB c = false) →
    ∀ l ∈ slAux acc t, ∀ c ∈ l, isLB c = false := by
  intro n
  induction n with
  | zero =>
    intro t acc hlen hacc l hl c hc
    have ht : t = [] := by
      cases t with
      | nil => rfl
      | cons x r => simp at hlen
    subst ht
    rw [slAux.eq_def] at hl
    simp only [List.mem_singleton] at hl
    subst hl
    exact hacc c (List.mem_reverse.1 hc)
  | succ n ih =>
    intro t acc hlen hacc l hl c hc
    cases t with
    | nil =>
      rw [slAux.eq_def] at hl
      simp only [List.mem_singleton] at hl
      subst hl
      exact hacc c (List.mem_reverse.1 hc)
    | cons x rest =>
      have hr : rest.length ≤ n := by
        simp only [List.length_cons] at hlen; omega
      rw [slAux.eq_def] at hl
      dsimp only at hl
      by_cases hlb : isLB x = true
      · rw [if_pos hlb] at hl
        by_cases hcr : x = '\r' ∧ rest.head? = some '\n'
        · rw [if_pos hcr] at hl
          rcases List.mem_cons.1 hl with h1 | h1
          · subst h1; exact hacc c (List.mem_reverse.1 hc)
          · by_cases hre : (rest.drop 1).isEmpty = true
            · rw [if_pos hre] at h1; simp at h1
            · rw [if_neg hre] at h1
              exact ih (rest.drop 1) [] (by simp only [List.length_drop]; omega)
                (by simp) l h1 c hc
        · rw [if_neg hcr] at hl
          rcases List.mem_cons.1 hl with h1 | h1
          · subst h1; exact hacc c (List.mem_reverse.1 hc)
          · by_cases hre : rest.isEmpty = true
            · rw [if_pos hre] at h1; simp at h1
            · rw [if_neg hre] at h1
              exact ih rest [] hr (by simp) l h1 c hc
      · rw [if_neg hlb] at hl
        refine ih rest (x :: acc) hr ?_ l hl c hc
        intro d hd
        rcases List.mem_cons.1 hd with h1 | h1
        · subst h1; simpa using hlb
        · exact hacc d h1

lemma splitLines_no_lb (t : Text) : ∀ l ∈ splitLines t, ∀ c ∈ l, isLB c = false := by
  intro l hl c hc
  unfold splitLines at hl
  by_cases h : t.isEmpty = true
  · rw [if_pos h] at hl; simp at hl
  · rw [if_neg h] at hl
    exact slAux_mem_no_lb t.length t [] le_rfl (by simp) l hl c hc

lemma slAux_nl (acc rest : Text) :
    slAux acc ('\n' :: rest) = acc.reverse :: (if rest.isEmpty then [] else slAux [] rest) := by
  rw [slAux.eq_def]
  dsimp only
  rw [if_pos (show isLB '\n' = true from by decide)]
  rw [if_neg (show ¬('\n' = '\r' ∧ rest.head? = some '\n') from by simp)]

lemma splitLines_joinNL : ∀ (ls : List Text), ls ≠ [] →
    (∀ l ∈ ls, ∀ c ∈ l, isLB c = false) →
    splitLines (joinNL ls ++ ['\n']) = ls := by
  intro ls
  induction ls with
  | nil => intro h _; exact absurd rfl h
  | cons l ls' ih =>
    intro _ h
    have hl : ∀ c ∈ l, isLB c = false := h l (List.mem_cons_self l ls')
    cases ls' with
    | nil =>
      show splitLines (joinNL [l] ++ ['\n']) = [l]
      have hj : joinNL [l] = l := by simp [joinNL]
      rw [hj]
      unfold splitLines
      rw [if_neg (by simp)]
      rw [slAux_app l hl [] ['\n'], slAux_nl]
      simp
    | cons l2 ls'' =>
      have hj : joinNL (l :: l2 :: ls'') = l ++ ('\n' :: joinNL (l2 :: ls'')) := by
        simp [joinNL]
      rw [hj]
      have hassoc : (l ++ ('\n' :: joinNL (l2 :: ls''))) ++ ['\n']
          = l ++ ('\n' :: (joinNL (l2 :: ls'') ++ ['\n'])) := by simp
      rw [hassoc]
      unfold splitLines
      rw [if_neg (by simp)]
      rw [slAux_app l hl [] ('\n' :: (joinNL (l2 :: ls'') ++ ['\n'])), slAux_nl]
      rw [if_neg (show ¬((joinNL (l2 :: ls'') ++ ['\n']).isEmpty = true) from by simp)]
      have hrec : splitLines (joinNL (l2 :: ls'') ++ ['\n']) = l2 :: ls'' :=
        ih (by simp) (fun x hx => h x (List.mem_cons_of_mem l hx))
      unfold splitLines at hrec
      rw [if_neg (by simp)] at hrec
      rw [hrec]
      simp

lemma filter_twice (p : Text → Bool) : ∀ (xs : List Text), (xs.filter p).filter p = xs.filter p := by
  intro xs
  induction xs with
  | nil => rfl
  | cons x xs' ih =>
    by_cases h : p x = true
    · simp [List.filter_cons, h, ih]
    · simp only [List.filter_cons, h]
      rw [if_neg (by simp [h])]
      exact ih

lemma compact_lines (t : Text) :
    splitLines (compact t) = (splitLines t).filter (fun l => !(pyStrip l).isEmpty) := by
  by_cases h : ((splitLines t).filter (fun l => !(pyStrip l).isEmpty)).isEmpty = true
  · have hct : compact t = [] := by unfold compact; rw [if_pos h]
    rw [hct]
    rw [List.isEmpty_iff] at h
    rw [h]
    rfl
  · have hct : compact t
        = joinNL ((splitLines t).filter (fun l => !(pyStrip l).isEmpty)) ++ ['\n'] := by
      unfold compact; rw [if_neg h]
    rw [hct]
    apply splitLines_joinNL
    · intro hnil
      rw [hnil] at h
      simp at h
    · intro l hl c hc
      exact splitLines_no_lb t l (List.mem_filter.1 hl).1 c hc

lemma compact_no_blank (t : Text) :
    ∀ l ∈ splitLines (compact t), (pyStrip l).isEmpty = false := by
  intro l hl
  rw [compact_lines] at hl
  have := (List.mem_filter.1 hl).2
  simpa using this

lemma compact_idem (t : Text) : compact (compact t) = compact t := by
  have hrfl : compact (compact t)
      = (if ((splitLines (compact t)).filter (fun l => !(pyStrip l).isEmpty)).isEmpty then []
         else joinNL ((splitLines (compact t)).filter (fun l => !(pyStrip l).isEmpty))
           ++ ['\n']) := rfl
  rw [hrfl, compact_lines t, filter_twice]
  by_cases h : ((splitLines t).filter (fun l => !(pyStrip l).isEmpty)).isEmpty = true
  · rw [if_pos h]
    have hct : compact t = [] := by unfold compact; rw [if_pos h]
    exact hct.symm
  · rw [if_neg h]
    have hct : compact t
        = joinNL ((splitLines t).filter (fun l => !(pyStrip l).isEmpty)) ++ ['\n'] := by
      unfold compact; rw [if_neg h]
    exact hct.symm

lemma mem_joinNL : ∀ (ls : List Text) (c : Char), c ∈ joinNL ls →
    (∃ l ∈ ls, c ∈ l) ∨ c = '\n' := by
  intro ls
  induction ls with
  | nil => intro c hc; simp [joinNL] at hc
  | cons l ls' ih =>
    intro c hc
    simp only [joinNL] at hc
    rcases List.mem_append.1 hc with h1 | h1
    · exact Or.inl ⟨l, List.mem_cons_self l ls', h1⟩
    · by_cases hne : ls'.isEmpty = true
      · rw [if_pos hne] at h1; simp at h1
      · rw [if_neg hne] at h1
        rcases List.mem_cons.1 h1 with h2 | h2
        · exact Or.inr h2
        · rcases ih c h2 with ⟨l', hl', hcl'⟩ | h3
          · exact Or.inl ⟨l', List.mem_cons_of_mem l hl', hcl'⟩
          · exact Or.inr h3

lemma compact_char_lb (t : Text) (c : Char) (hc : c ∈ compact t)
    (hlb : isLB c = true) : c = '\n' := by
  unfold compact at hc
  by_cases h : ((splitLines t).filter (fun l => !(pyStrip l).isEmpty)).isEmpty = true
  · rw [if_pos h] at hc; simp at hc
  · rw [if_neg h] at hc
    rcases List.mem_append.1 hc with h1 | h1
    · rcases mem_joinNL _ c h1 with ⟨l, hl, hcl⟩ | h2
      · have := splitLines_no_lb t l (List.mem_filter.1 hl).1 c hcl
        rw [this] at hlb
        exact absurd hlb (by simp)
      · exact h2
    · simpa using h1

/-! ### Further helpers for context hypotheses and concrete evaluation -/

lemma startsSeq_pair_false (p d c : Char) (t : Text) (hc : c ≠ p) :
    startsSeq [p, d] (c :: t) = false := by
  have hpc : (p == c) = false := by
    simp only [beq_eq_false_iff_ne, ne_eq]
    exact fun hh => hc hh.symm
  cases t with
  | nil => simp [startsSeq, hpc]
  | cons e t' => simp [startsSeq, hpc]

lemma containsSeq_pair_none (p d : Char) : ∀ (u : Text), (∀ c ∈ u, c ≠ p) →
    containsSeq [p, d] u = false := by
  intro u
  induction u with
  | nil => intro _; rfl
  | cons c rest ih =>
    intro h
    simp only [containsSeq, Bool.or_eq_false_iff]
    exact ⟨startsSeq_pair_false p d c _ (h c (List.mem_cons_self c rest)),
      ih (fun x hx => h x (List.mem_cons_of_mem c hx))⟩

lemma containsSeq_pair_last (p d : Char) : ∀ (u : Text), (∀ c ∈ u, c ≠ p) →
    containsSeq [p, d] (u ++ [p]) = false := by
  intro u
  induction u with
  | nil =>
    intro _
    simp only [List.nil_append, containsSeq, Bool.or_eq_false_iff]
    refine ⟨by simp [startsSeq], ?_⟩
    simp [containsSeq]
  | cons c rest ih =>
    intro h
    rw [List.cons_append]
    simp only [containsSeq, Bool.or_eq_false_iff]
    exact ⟨startsSeq_pair_false p d c _ (h c (List.mem_cons_self c rest)),
      ih (fun x hx => h x (List.mem_cons_of_mem c hx))⟩

lemma isQuoteChar_cases {q : Char} (hq : isQuoteChar q = true) :
    q = '\'' ∨ q = '"' ∨ q = backtick := by
  simp only [isQuoteChar, Bool.or_eq_true, beq_iff_eq] at hq
  tauto

lemma isQuoteChar_ne_slash {q : Char} (hq : isQuoteChar q = true) : q ≠ '/' := by
  rcases isQuoteChar_cases hq with h | h | h <;> subst h <;> decide

lemma ne_of_isQuoteChar {q c : Char} (hq : isQuoteChar q = true)
    (hc : isQuoteChar c = false) : c ≠ q := by
  intro h
  subst h
  rw [hq] at hc
  exact absurd hc (by simp)

lemma jsScanAux_nil : jsScanAux [] = [] := by rw [jsScanAux.eq_def]

lemma ymlScanAux_nil : ymlScanAux [] = [] := by rw [ymlScanAux.eq_def]

lemma dropWhile_all_nil {p : Char → Bool} : ∀ {u : Text}, (∀ c ∈ u, p c = true) →
    u.dropWhile p = [] := by
  intro u
  induction u with
  | nil => intro _; rfl
  | cons c u' ih =>
    intro h
    rw [List.dropWhile_cons_of_pos (h c (List.mem_cons_self c u'))]
    exact ih (fun d hd => h d (List.mem_cons_of_mem c hd))

/-- Evaluation bridges: the source functions as kernel-computable terms. -/
lemma remove_js_eval (t : Text) : remove_js_ts_comments t = jsScanF t.length t :=
  (jsScanF_eq t.length t le_rfl).symm

lemma remove_html_eval (t : Text) : remove_html_comments t = htmlScanF t.length t :=
  (htmlScanF_eq t.length t le_rfl).symm

lemma remove_css_eval (t : Text) : remove_css_comments t = cssScanF t.length t :=
  (cssScanF_eq t.length t le_rfl).symm

lemma remove_yml_eval (t : Text) : remove_yml_comments t = ymlScanF t.length t :=
  (ymlScanF_eq t.length t le_rfl).symm

/-! ### The claims -/

/-- C1: in the script dialect, a `//` or `/*` sequence inside a well-formed
terminated quoted/backtick literal is never treated as a comment start: the
whole literal (hence any such sequence inside it) survives unmodified in the
stripped output, and the text after the literal is processed independently,
so nothing following the in-literal sequence on its line is removed on its
account.  `a` is the preceding context, free of quote characters and
slashes; `body` may contain `//` and `/*` freely. -/
theorem C1_literal_preservation (a body b : Text) (q : Char)
    (hq : isQuoteChar q = true)
    (ha : ∀ c ∈ a, isQuoteChar c = false ∧ c ≠ '/')
    (hwf : wfBody q body = true) :
    remove_js_ts_comments (a ++ (q :: (body ++ [q])) ++ b)
      = a ++ (q :: (body ++ [q])) ++ remove_js_ts_comments b := by
  show jsScanAux (a ++ (q :: (body ++ [q])) ++ b) = a ++ (q :: (body ++ [q])) ++ jsScanAux b
  have hx : (a ++ (q :: (body ++ [q])) ++ b) = a ++ (q :: (body ++ q :: b)) := by simp
  rw [hx]
  have hqs : ∀ c ∈ a ++ [q], c ≠ '/' := by
    intro c hc
    rcases List.mem_append.1 hc with h1 | h1
    · exact (ha c h1).2
    · rw [List.mem_singleton] at h1
      subst h1
      exact isQuoteChar_ne_slash hq
  rw [js_plain a (q :: (body ++ q :: b)) (fun c hc => (ha c hc).1)
    (by rw [show (q :: (body ++ q :: b)).take 1 = [q] from rfl]
        exact containsSeq_pair_none '/' '/' _ hqs)
    (by rw [show (q :: (body ++ q :: b)).take 1 = [q] from rfl]
        exact containsSeq_pair_none '/' '*' _ hqs)]
  rw [jsScanAux_lit q body b hq hwf]
  simp

/-- C1 witness: a double-quoted literal containing `//`, followed by a real
line comment. -/
theorem C1_witness :
    remove_js_ts_comments
        ("x = ".toList ++ ('"' :: ("a // b".toList ++ ['"'])) ++ "; // c".toList)
      = "x = ".toList ++ ('"' :: ("a // b".toList ++ ['"']))
        ++ remove_js_ts_comments "; // c".toList :=
  C1_literal_preservation "x = ".toList "a // b".toList "; // c".toList '"'
    (by decide) (by decide) (by decide)

/-- C2: in each dialect, a well-formed terminated comment lying outside all
literals is removed whole, and the surrounding text is kept verbatim: script
block comments, script line comments, stylesheet block comments, markup
comments.  `a` is the preceding context (quote- and slash-free for the
script dialect; free of the comment opener for the other dialects); `b` is
the rest of the input, processed independently. -/
theorem C2_comment_removal :
    (∀ a body b : Text,
      (∀ c ∈ a, isQuoteChar c = false ∧ c ≠ '/') →
      containsSeq ['*', '/'] body = false →
      remove_js_ts_comments (a ++ ('/' :: '*' :: (body ++ '*' :: '/' :: b)))
        = a ++ remove_js_ts_comments b) ∧
    (∀ a body b : Text,
      (∀ c ∈ a, isQuoteChar c = false ∧ c ≠ '/') →
      (∀ c ∈ body, c ≠ '\n') →
      (b = [] ∨ ∃ b', b = '\n' :: b') →
      remove_js_ts_comments (a ++ ('/' :: '/' :: (body ++ b)))
        = a ++ remove_js_ts_comments b) ∧
    (∀ a body b : Text,
      containsSeq ['/', '*'] (a ++ ['/']) = false →
      containsSeq ['*', '/'] body = false →
      remove_css_comments (a ++ ('/' :: '*' :: (body ++ '*' :: '/' :: b)))
        = a ++ remove_css_comments b) ∧
    (∀ a body b : Text,
      containsSeq ['<', '!', '-', '-'] (a ++ ['<', '!', '-']) = false →
      containsSeq ['-', '-', '>'] body = false →
      remove_html_comments (a ++ ('<' :: '!' :: '-' :: '-' :: (body ++ '-' :: '-' :: '>' :: b)))
        = a ++ remove_html_comments b) := by
  refine ⟨?_, ?_, ?_, ?_⟩
  · intro a body b ha hbody
    show jsScanAux _ = a ++ jsScanAux b
    have has : ∀ c ∈ a, c ≠ '/' := fun c hc => (ha c hc).2
    rw [js_plain a ('/' :: '*' :: (body ++ '*' :: '/' :: b)) (fun c hc => (ha c hc).1)
      (by rw [show ('/' :: '*' :: (body ++ '*' :: '/' :: b)).take 1 = ['/'] from rfl]
          exact containsSeq_pair_last '/' '/' a has)
      (by rw [show ('/' :: '*' :: (body ++ '*' :: '/' :: b)).take 1 = ['/'] from rfl]
          exact containsSeq_pair_last '/' '*' a has)]
    rw [jsScanAux_block body b hbody]
  · intro a body b ha hbody hb
    show jsScanAux _ = a ++ jsScanAux b
    have has : ∀ c ∈ a, c ≠ '/' := fun c hc => (ha c hc).2
    rw [js_plain a ('/' :: '/' :: (body ++ b)) (fun c hc => (ha c hc).1)
      (by rw [show ('/' :: '/' :: (body ++ b)).take 1 = ['/'] from rfl]
          exact containsSeq_pair_last '/' '/' a has)
      (by rw [show ('/' :: '/' :: (body ++ b)).take 1 = ['/'] from rfl]
          exact containsSeq_pair_last '/' '*' a has)]
    rw [jsScanAux_line body b hbody hb]
  · intro a body b ha hbody
    show cssScanAux _ = a ++ cssScanAux b
    rw [css_plain a ('/' :: '*' :: (body ++ '*' :: '/' :: b))
      (by rw [show ('/' :: '*' :: (body ++ '*' :: '/' :: b)).take 1 = ['/'] from rfl]; exact ha)]
    rw [cssScanAux_com body b hbody]
  · intro a body b ha hbody
    show htmlScanAux _ = a ++ htmlScanAux b
    rw [html_plain a ('<' :: '!' :: '-' :: '-' :: (body ++ '-' :: '-' :: '>' :: b))
      (by rw [show ('<' :: '!' :: '-' :: '-' :: (body ++ '-' :: '-' :: '>' :: b)).take 3
            = ['<', '!', '-'] from rfl]
          exact ha)]
    rw [htmlScanAux_com body b hbody]

/-- C2 witness: one concrete instance for each of the four comment forms. -/
theorem C2_witness :
    (remove_js_ts_comments ("x = 1; ".toList ++ ('/' :: '*' :: (" note ".toList ++ '*' :: '/' :: " y".toList)))
      = "x = 1; ".toList ++ remove_js_ts_comments " y".toList) ∧
    (remove_js_ts_comments ("x = 1; ".toList ++ ('/' :: '/' :: (" note".toList ++ "\nz".toList)))
      = "x = 1; ".toList ++ remove_js_ts_comments "\nz".toList) ∧
    (remove_css_comments ("p { } ".toList ++ ('/' :: '*' :: (" c ".toList ++ '*' :: '/' :: "\nq".toList)))
      = "p { } ".toList ++ remove_css_comments "\nq".toList) ∧
    (remove_html_comments ("<div>".toList ++ ('<' :: '!' :: '-' :: '-' :: (" note ".toList ++ '-' :: '-' :: '>' :: "text</div>".toList)))
      = "<div>".toList ++ remove_html_comments "text</div>".toList) :=
  ⟨C2_comment_removal.1 "x = 1; ".toList " note ".toList " y".toList (by decide) (by decide),
   C2_comment_removal.2.1 "x = 1; ".toList " note".toList "\nz".toList (by decide) (by decide)
     (Or.inr ⟨"z".toList, by decide⟩),
   C2_comment_removal.2.2.1 "p { } ".toList " c ".toList "\nq".toList (by decide) (by decide),
   C2_comment_removal.2.2.2 "<div>".toList " note ".toList "text</div>".toList (by decide) (by decide)⟩

/-- C3 counterexample: an unterminated `/*` (script and stylesheet) or `<!--`
(markup) is NOT removed to end-of-text — the regexes require the closing
delimiter, so the whole text is left unchanged, contradicting the claim that
the tail from the opener is removed. -/
theorem C3_counterexample :
    remove_css_comments "x { } /* note".toList = "x { } /* note".toList ∧
    remove_js_ts_comments "a = 1; /* note".toList = "a = 1; /* note".toList ∧
    remove_html_comments "<p> <!-- hmm".toList = "<p> <!-- hmm".toList ∧
    remove_css_comments "x { } /* note".toList ≠ "x { } ".toList := by
  refine ⟨?_, ?_, ?_, ?_⟩
  · rw [remove_css_eval]; decide
  · rw [remove_js_eval]; decide
  · rw [remove_html_eval]; decide
  · rw [remove_css_eval]; decide

/-- C3 amended: an unterminated block/markup comment opener is not recognized
as a comment at all; when the closing delimiter never occurs in the text (and,
for the script dialect, the text has no literals or line comments), the strip
is the identity and no error is raised. -/
theorem C3_amended :
    (∀ t : Text, containsSeq ['*', '/'] t = false → remove_css_comments t = t) ∧
    (∀ t : Text, containsSeq ['-', '-', '>'] t = false → remove_html_comments t = t) ∧
    (∀ t : Text, (∀ c ∈ t, isQuoteChar c = false) → containsSeq ['/', '/'] t = false →
      containsSeq ['*', '/'] t = false → remove_js_ts_comments t = t) := by
  refine ⟨?_, ?_, ?_⟩
  · intro t
    show containsSeq ['*', '/'] t = false → cssScanAux t = t
    have main : ∀ (n : Nat) (t : Text), t.length ≤ n →
        containsSeq ['*', '/'] t = false → cssScanAux t = t := by
      intro n
      induction n with
      | zero =>
        intro t hlen _
        have ht : t = [] := by
          cases t with
          | nil => rfl
          | cons c r => simp at hlen
        subst ht
        rw [cssScanAux.eq_def]
      | succ n ih =>
        intro t hlen hc
        cases t with
        | nil => rw [cssScanAux.eq_def]
        | cons c rest =>
          have hr : rest.length ≤ n := by simp only [List.length_cons] at hlen; omega
          have hrest : containsSeq ['*', '/'] rest = false := (containsSeq_cons_false hc).2
          rw [cssScanAux.eq_def]
          dsimp only
          by_cases hbs : startsSeq ['/', '*'] (c :: rest) = true
          · rw [if_pos hbs]
            rw [findSeq_of_not_contains (containsSeq_drop_one hrest)]
            rw [ih rest hr hrest]
          · rw [if_neg hbs, ih rest hr hrest]
    exact main t.length t le_rfl
  · intro t
    show containsSeq ['-', '-', '>'] t = false → htmlScanAux t = t
    have main : ∀ (n : Nat) (t : Text), t.length ≤ n →
        containsSeq ['-', '-', '>'] t = false → htmlScanAux t = t := by
      intro n
      induction n with
      | zero =>
        intro t hlen _
        have ht : t = [] := by
          cases t with
          | nil => rfl
          | cons c r => simp at hlen
        subst ht
        rw [htmlScanAux.eq_def]
      | succ n ih =>
        intro t hlen hc
        cases t with
        | nil => rw [htmlScanAux.eq_def]
        | cons c rest =>
          have hr : rest.length ≤ n := by simp only [List.length_cons] at hlen; omega
          have hrest : containsSeq ['-', '-', '>'] rest = false := (containsSeq_cons_false hc).2
          rw [htmlScanAux.eq_def]
          dsimp only
          by_cases hbs : startsSeq ['<', '!', '-', '-'] (c :: rest) = true
          · rw [if_pos hbs]
            have h3 : containsSeq ['-', '-', '>'] (rest.drop 3) = false := by
              have h1 := containsSeq_drop_one hrest
              have h2 := containsSeq_drop_one h1
              have h3 := containsSeq_drop_one h2
              rw [List.drop_drop, List.drop_drop] at h3
              exact h3
            rw [findSeq_of_not_contains h3]
            rw [ih rest hr hrest]
          · rw [if_neg hbs, ih rest hr hrest]
    exact main t.length t le_rfl
  · intro t
    show (∀ c ∈ t, isQuoteChar c = false) → _ → _ → jsScanAux t = t
    have main : ∀ (n : Nat) (t : Text), t.length ≤ n →
        (∀ c ∈ t, isQuoteChar c = false) → containsSeq ['/', '/'] t = false →
        containsSeq ['*', '/'] t = false → jsScanAux t = t := by
      intro n
      induction n with
      | zero =>
        intro t hlen _ _ _
        have ht : t = [] := by
          cases t with
          | nil => rfl
          | cons c r => simp at hlen
        subst ht
        rw [jsScanAux.eq_def]
      | succ n ih =>
        intro t hlen hnq hll hsc
        cases t with
        | nil => rw [jsScanAux.eq_def]
        | cons c rest =>
          have hr : rest.length ≤ n := by simp only [List.length_cons] at hlen; omega
          have hnq' : ∀ x ∈ rest, isQuoteChar x = false :=
            fun x hx => hnq x (List.mem_cons_of_mem c hx)
          have hll' : containsSeq ['/', '/'] rest = false := (containsSeq_cons_false hll).2
          have hsc' : containsSeq ['*', '/'] rest = false := (containsSeq_cons_false hsc).2
          rw [jsScanAux.eq_def]
          dsimp only
          rw [if_neg (by simp [hnq c (List.mem_cons_self c rest)])]
          by_cases hbs : startsSeq ['/', '*'] (c :: rest) = true
          · rw [if_pos hbs]
            rw [findSeq_of_not_contains (containsSeq_drop_one hsc')]
            rw [ih rest hr hnq' hll' hsc']
          · rw [if_neg hbs]
            have hls : startsSeq ['/', '/'] (c :: rest) = false := (containsSeq_cons_false hll).1
            rw [if_neg (by simp [hls]), ih rest hr hnq' hll' hsc']
    exact main t.length t le_rfl

/-- C3 amended witness: unterminated comments in each dialect are left in
place. -/
theorem C3_amended_witness :
    remove_css_comments "x { } /* note".toList = "x { } /* note".toList ∧
    remove_html_comments "<p> <!-- hmm".toList = "<p> <!-- hmm".toList ∧
    remove_js_ts_comments "a = 1; /* note".toList = "a = 1; /* note".toList :=
  ⟨C3_amended.1 "x { } /* note".toList (by decide),
   C3_amended.2.1 "<p> <!-- hmm".toList (by decide),
   C3_amended.2.2 "a = 1; /* note".toList (by decide) (by decide) (by decide)⟩

/-- C4 counterexample: after an unterminated quote opener, `//` (script) and
`#` (config) ARE stripped as comments — the quote alternative requires a
closing quote, so the unterminated literal does not protect them, contrary to
the claim. -/
theorem C4_counterexample :
    remove_js_ts_comments "\"ab // cd".toList = "\"ab ".toList ∧
    remove_js_ts_comments "\"ab // cd".toList ≠ "\"ab // cd".toList ∧
    remove_yml_comments "k: \"v # x".toList = "k: \"v ".toList ∧
    remove_yml_comments "k: \"v # x".toList ≠ "k: \"v # x".toList := by
  refine ⟨?_, ?_, ?_, ?_⟩
  · rw [remove_js_eval]; decide
  · rw [remove_js_eval]; decide
  · rw [remove_yml_eval]; decide
  · rw [remove_yml_eval]; decide

/-- C4 amended: an unterminated quote opener is not treated as a literal: the
opener is kept as a plain character, scanning continues after it, and a
comment delimiter (`//` for script, `#` for config) occurring after it starts
a comment that is stripped to end-of-text. -/
theorem C4_amended :
    (∀ (a body tail : Text) (q : Char),
      isQuoteChar q = true →
      (∀ c ∈ a, isQuoteChar c = false ∧ c ≠ '/') →
      (∀ c ∈ body, isQuoteChar c = false ∧ c ≠ '/' ∧ c ≠ '\\') →
      (∀ c ∈ tail, c ≠ '\n' ∧ c ≠ q ∧ c ≠ '\\') →
      remove_js_ts_comments (a ++ q :: (body ++ '/' :: '/' :: tail)) = a ++ q :: body) ∧
    (∀ (a body tail : Text) (q : Char),
      (q = '\'' ∨ q = '"') →
      (∀ c ∈ a, c ≠ '\'' ∧ c ≠ '"' ∧ c ≠ '#') →
      (∀ c ∈ body, c ≠ '\'' ∧ c ≠ '"' ∧ c ≠ '#' ∧ c ≠ '\\') →
      (∀ c ∈ tail, c ≠ '\n' ∧ c ≠ q ∧ c ≠ '\\') →
      remove_yml_comments (a ++ q :: (body ++ '#' :: tail)) = a ++ q :: body) := by
  constructor
  · intro a body tail q hq ha hbody htail
    show jsScanAux _ = _
    have hqs : ∀ c ∈ a ++ [q], c ≠ '/' := by
      intro c hc
      rcases List.mem_append.1 hc with h1 | h1
      · exact (ha c h1).2
      · rw [List.mem_singleton] at h1; subst h1; exact isQuoteChar_ne_slash hq
    rw [js_plain a (q :: (body ++ '/' :: '/' :: tail)) (fun c hc => (ha c hc).1)
      (by rw [show (q :: (body ++ '/' :: '/' :: tail)).take 1 = [q] from rfl]
          exact containsSeq_pair_none '/' '/' _ hqs)
      (by rw [show (q :: (body ++ '/' :: '/' :: tail)).take 1 = [q] from rfl]
          exact containsSeq_pair_none '/' '*' _ hqs)]
    rw [jsScanAux.eq_def]
    dsimp only
    rw [if_pos (by simp [hq])]
    have hnone : quoteBody q (q != backtick) (body ++ '/' :: '/' :: tail) = none := by
      apply quoteBody_none
      intro c hc
      rcases List.mem_append.1 hc with h1 | h1
      · exact ⟨ne_of_isQuoteChar hq (hbody c h1).1, (hbody c h1).2.2⟩
      · rcases List.mem_cons.1 h1 with h2 | h2
        · subst h2
          exact ⟨(isQuoteChar_ne_slash hq ·.symm), by decide⟩
        · rcases List.mem_cons.1 h2 with h3 | h3
          · subst h3
            exact ⟨(isQuoteChar_ne_slash hq ·.symm), by decide⟩
          · exact ⟨(htail c h3).2.1, (htail c h3).2.2⟩
    rw [hnone]
    have hbs : ∀ c ∈ body, c ≠ '/' := fun c hc => (hbody c hc).2.1
    rw [js_plain body ('/' :: '/' :: tail) (fun c hc => (hbody c hc).1)
      (by rw [show ('/' :: '/' :: tail).take 1 = ['/'] from rfl]
          exact containsSeq_pair_last '/' '/' body hbs)
      (by rw [show ('/' :: '/' :: tail).take 1 = ['/'] from rfl]
          exact containsSeq_pair_last '/' '*' body hbs)]
    have htl : '/' :: '/' :: tail = '/' :: '/' :: (tail ++ []) := by simp
    rw [htl, jsScanAux_line tail [] (fun c hc => (htail c hc).1) (Or.inl rfl), jsScanAux_nil]
    simp
  · intro a body tail q hq ha hbody htail
    show ymlScanAux _ = _
    have hqq : q ≠ '#' ∧ q ≠ '\\' ∧ ((q == '\'' || q == '"') = true) := by
      rcases hq with h | h <;> subst h <;> exact ⟨by decide, by decide, by decide⟩
    rw [yml_plain a (q :: (body ++ '#' :: tail)) ha]
    rw [ymlScanAux.eq_def]
    dsimp only
    rw [if_pos hqq.2.2]
    have hnone : quoteBody q true (body ++ '#' :: tail) = none := by
      apply quoteBody_none
      intro c hc
      rcases List.mem_append.1 hc with h1 | h1
      · refine ⟨?_, (hbody c h1).2.2.2⟩
        rcases hq with h | h <;> subst h
        · exact (hbody c h1).1
        · exact (hbody c h1).2.1
      · rcases List.mem_cons.1 h1 with h2 | h2
        · subst h2
          exact ⟨fun hh => hqq.1 hh.symm, by decide⟩
        · exact ⟨(htail c h2).2.1, (htail c h2).2.2⟩
    rw [hnone]
    rw [yml_plain body ('#' :: tail)
      (fun c hc => ⟨(hbody c hc).1, (hbody c hc).2.1, (hbody c hc).2.2.1⟩)]
    rw [ymlScanAux.eq_def]
    dsimp only
    rw [if_neg (by decide), if_pos rfl]
    rw [dropWhile_all_nil (by intro c hc; simpa using (htail c hc).1), ymlScanAux_nil]
    simp

/-- C4 amended witness: the concrete unterminated-literal inputs of the
counterexample, derived from the amended statement. -/
theorem C4_amended_witness :
    remove_js_ts_comments ("x = ".toList ++ '"' :: ("ab ".toList ++ '/' :: '/' :: " cd".toList))
      = "x = ".toList ++ '"' :: "ab ".toList ∧
    remove_yml_comments ("k: ".toList ++ '"' :: ("v ".toList ++ '#' :: " x".toList))
      = "k: ".toList ++ '"' :: "v ".toList :=
  ⟨C4_amended.1 "x = ".toList "ab ".toList " cd".toList '"'
     (by decide) (by decide) (by decide) (by decide),
   C4_amended.2 "k: ".toList "v ".toList " x".toList '"'
     (Or.inr rfl) (by decide) (by decide) (by decide)⟩

/-- The spec's concrete script-dialect scenario input. -/
def exampleTS : Text :=
  "const x = \"a // not a comment\"; // real comment\nlet y = 1;".toList

/-- A multi-line template literal with a blank line inside its body. -/
def exampleTpl : Text := "const t = `x\n\ny`;".toList

/-- A script input on which the transform is not idempotent: the first pass
leaves `" //x "` protected by a string literal, the second pass pairs the
quotes differently and strips `//x "` as a comment. -/
def tricky6 : Text := "\" // \\\n\" //x \"".toList

/-- C5: for every dialect and input, the output has no line whose stripped
content is empty, and it is exactly the surviving lines of the stripped text
joined by single `'\n'` terminators with one trailing `'\n'` (empty when no
line survives). -/
theorem C5_blank_line_compaction (d : Dialect) (t : Text) :
    (∀ l ∈ splitLines (processText d t), (pyStrip l).isEmpty = false) ∧
    processText d t =
      (if ((splitLines (stripDialect d t)).filter (fun l => !(pyStrip l).isEmpty)).isEmpty
       then []
       else joinNL ((splitLines (stripDialect d t)).filter (fun l => !(pyStrip l).isEmpty))
         ++ ['\n']) :=
  ⟨compact_no_blank _, rfl⟩

/-- C5 witness on the spec's concrete scenario. -/
theorem C5_witness :
    "let y = 1;".toList ∈ splitLines (processText .script exampleTS) ∧
    (pyStrip "let y = 1;".toList).isEmpty = false :=
  ⟨by rw [← processTextC_eq, ← splitLinesC_eq]; decide,
   (C5_blank_line_compaction .script exampleTS).1 "let y = 1;".toList
     (by rw [← processTextC_eq, ← splitLinesC_eq]; decide)⟩

/-- C6 counterexample: the per-file transform is not idempotent.  On
`tricky6`, the first pass protects `//x "` inside a double-quoted literal,
while in the second pass the backslash-newline that blocked the first quote
pairing is gone from the relevant position, the quotes pair differently, and
`//x "` is stripped, so applying the transform twice differs from once. -/
theorem C6_counterexample :
    processText .script (processText .script tricky6) ≠ processText .script tricky6 := by
  rw [← processTextC_eq, ← processTextC_eq]
  decide

/-- C6 amended: the full transform is not idempotent in general (see the
counterexample), but its blank-line-compaction stage is: compacting
already-compacted text changes nothing. -/
theorem C6_amended_compaction_idempotent (t : Text) : compact (compact t) = compact t :=
  compact_idem t

/-- C7 counterexample: on the spec's concrete scenario the surviving output
lines are NOT exactly `const x = "a // not a comment";` and `let y = 1;` —
the space that stood before `// real comment` survives at the end of the
first line. -/
theorem C7_counterexample :
    splitLines (processText .script exampleTS)
      ≠ ["const x = \"a // not a comment\";".toList, "let y = 1;".toList] := by
  rw [← processTextC_eq, ← splitLinesC_eq]
  decide

/-- C7 amended: the output of the scenario keeps a trailing space on the
first line: the comment text `// real comment` is removed, but the blank
that separated it from the semicolon is not. -/
theorem C7_amended :
    processText .script exampleTS
      = "const x = \"a // not a comment\"; \nlet y = 1;\n".toList ∧
    splitLines (processText .script exampleTS)
      = ["const x = \"a // not a comment\"; ".toList, "let y = 1;".toList] := by
  constructor
  · rw [← processTextC_eq]; decide
  · rw [← processTextC_eq, ← splitLinesC_eq]; decide

/-- The claim's notion of a file's extension: the suffix after the last dot
of its name, when a dot exists at all. -/
def lastDotSuffix (p : Text) : Option Text :=
  if p.any (fun c => c == '.') then
    some ((p.reverse.takeWhile (fun c => c != '.')).reverse)
  else none

lemma splitextExt_eq (p : Text) :
    splitextExt p = [] ∨
    (p.any (fun c => c == '.') = true ∧
     splitextExt p = '.' :: (p.reverse.takeWhile (fun c => c != '.')).reverse) := by
  unfold splitextExt
  by_cases h1 : (p.any (fun c => c == '.')
      && !((p.reverse.takeWhile (fun c => c != '.')).any (fun c => c == '/'))) = true
  · rw [if_pos h1]
    by_cases h2 : ((p.reverse.drop ((p.reverse.takeWhile (fun c => c != '.')).length + 1)).takeWhile
        (fun c => c != '/')).any (fun c => c != '.') = true
    · rw [if_pos h2]
      refine Or.inr ⟨?_, rfl⟩
      simp only [Bool.and_eq_true] at h1
      exact h1.1
    · rw [if_neg h2]
      exact Or.inl rfl
  · rw [if_neg h1]
    exact Or.inl rfl

/-- C8: a file whose extension — the suffix after the last dot of its name —
is not one of `ts`, `tsx`, `html`, `css`, `yml` is processed as a no-op: the
content is returned byte-identical, with neither stripping nor compaction
applied. -/
theorem C8_unknown_extension_noop (p content : Text)
    (h : ∀ s, lastDotSuffix p = some s →
      s ∉ ["ts".toList, "tsx".toList, "html".toList, "css".toList, "yml".toList]) :
    process_file p content = content := by
  unfold process_file
  rcases splitextExt_eq p with he | ⟨hdot, he⟩
  · rw [he]
    rfl
  · rw [he]
    have hs := h ((p.reverse.takeWhile (fun c => c != '.')).reverse)
      (by unfold lastDotSuffix; rw [if_pos hdot])
    have e1 : ¬('.' :: (p.reverse.takeWhile (fun c => c != '.')).reverse = ".ts".toList
        ∨ '.' :: (p.reverse.takeWhile (fun c => c != '.')).reverse = ".tsx".toList) := by
      rintro (hh | hh)
      · rw [show ".ts".toList = '.' :: "ts".toList from rfl] at hh
        injection hh with _ h2
        exact hs (by rw [h2]; decide)
      · rw [show ".tsx".toList = '.' :: "tsx".toList from rfl] at hh
        injection hh with _ h2
        exact hs (by rw [h2]; decide)
    have e2 : ¬('.' :: (p.reverse.takeWhile (fun c => c != '.')).reverse = ".html".toList) := by
      intro hh
      rw [show ".html".toList = '.' :: "html".toList from rfl] at hh
      injection hh with _ h2
      exact hs (by rw [h2]; decide)
    have e3 : ¬('.' :: (p.reverse.takeWhile (fun c => c != '.')).reverse = ".css".toList) := by
      intro hh
      rw [show ".css".toList = '.' :: "css".toList from rfl] at hh
      injection hh with _ h2
      exact hs (by rw [h2]; decide)
    have e4 : ¬('.' :: (p.reverse.takeWhile (fun c => c != '.')).reverse = ".yml".toList) := by
      intro hh
      rw [show ".yml".toList = '.' :: "yml".toList from rfl] at hh
      injection hh with _ h2
      exact hs (by rw [h2]; decide)
    unfold dialectOfExt
    rw [if_neg e1, if_neg e2, if_neg e3, if_neg e4]

/-- C8 witness: a `.txt` file is untouched. -/
theorem C8_witness :
    process_file "notes.txt".toList "a //b\n\n<!-- x -->\n".toList
      = "a //b\n\n<!-- x -->\n".toList :=
  C8_unknown_extension_noop "notes.txt".toList "a //b\n\n<!-- x -->\n".toList (by
    intro s hs
    rw [show lastDotSuffix "notes.txt".toList = some "txt".toList from rfl] at hs
    injection hs with h
    rw [← h]
    decide)

/-- C9: blank-line compaction also applies inside literal spans.  In general
no whitespace-only line survives in any script output; concretely, the
comment strip keeps the multi-line template literal of `exampleTpl` verbatim,
yet the final output differs from it: the blank line inside the backtick
literal's body is deleted, so the body of a multi-line literal is not always
preserved verbatim. -/
theorem C9_compaction_inside_literals :
    (∀ t : Text, ∀ l ∈ splitLines (processText .script t), (pyStrip l).isEmpty = false) ∧
    remove_js_ts_comments exampleTpl = exampleTpl ∧
    processText .script exampleTpl = "const t = `x\ny`;\n".toList ∧
    processText .script exampleTpl ≠ exampleTpl := by
  refine ⟨fun t => compact_no_blank _, ?_, ?_, ?_⟩
  · rw [remove_js_eval]; decide
  · rw [← processTextC_eq]; decide
  · rw [← processTextC_eq]; decide

/-- C9 witness. -/
theorem C9_witness :
    "const t = `x".toList ∈ splitLines (processText .script exampleTpl) ∧
    (pyStrip "const t = `x".toList).isEmpty = false :=
  ⟨by rw [← processTextC_eq, ← splitLinesC_eq]; decide,
   C9_compaction_inside_literals.1 exampleTpl "const t = `x".toList
     (by rw [← processTextC_eq, ← splitLinesC_eq]; decide)⟩

/-- C10: every line-boundary character in an output is the single character
`'\n'`: line splitting recognizes `\r\n`, `\r` (and the other Python
boundaries), and surviving lines are rejoined with `'\n'` only; concretely a
CRLF-terminated stylesheet input is written back with LF terminators. -/
theorem C10_line_terminators_lf :
    (∀ (d : Dialect) (t : Text), ∀ c ∈ processText d t, isLB c = true → c = '\n') ∧
    processText .stylesheet "a\r\nb\r\n".toList = "a\nb\n".toList := by
  constructor
  · intro d t c hc hlb
    exact compact_char_lb _ c hc hlb
  · rw [← processTextC_eq]; decide

/-- C10 witness. -/
theorem C10_witness :
    '\n' ∈ processText .stylesheet "a\r\nb\r\n".toList ∧ ('\n' : Char) = '\n' :=
  ⟨by rw [← processTextC_eq]; decide,
   C10_line_terminators_lf.1 .stylesheet "a\r\nb\r\n".toList '\n'
     (by rw [← processTextC_eq]; decide) (by decide)⟩

end SxRag







